import Mathlib

/-!
Verification of the `rust-rag-search` command-line tool
(`src/rust-rag/src/main.rs`).

Rust strings are UTF-8 byte sequences sliced at byte offsets; a slice
whose boundary is not a character boundary panics.  We model a Rust
`String`/`&str` as a `List Char` together with explicit byte
arithmetic (`utf8Len`, `byteDrop`, `byteTake`, `byteSlice`); a slice
returns `none` exactly when the Rust slice would panic.  Fallible
pipelines that can panic are therefore `Option`-valued.
-/

/-- Convenience conversion from a Lean string literal to the character
list that models the corresponding Rust string. -/
def cs (s : String) : List Char := s.toList

/-- Total UTF-8 byte length of a character list; models Rust `str::len`. -/
def utf8Len (l : List Char) : Nat := (l.map Char.utf8Size).sum

/-- Characters with the Unicode `White_Space` property, as tested by
Rust `char::is_whitespace` (used by `str::trim` at line 73/87 of the
source). -/
def rustIsWhitespace (c : Char) : Bool :=
  [9, 10, 11, 12, 13, 32, 133, 160, 0x1680, 0x2000, 0x2001, 0x2002, 0x2003,
   0x2004, 0x2005, 0x2006, 0x2007, 0x2008, 0x2009, 0x200A, 0x2028, 0x2029,
   0x202F, 0x205F, 0x3000].contains c.toNat

/-- Models the per-character action of Rust `str::to_lowercase`
(lines 65-66 of the source).  The full Unicode case mapping is not
reproduced here: the model lowers the ASCII letters (exactly as Rust
does) and leaves every other character unchanged, which agrees with
Rust on all ASCII text and on every non-ASCII character used in this
development, and preserves UTF-8 byte length. -/
def rustToLower (c : Char) : Char :=
  if 'A' ≤ c ∧ c ≤ 'Z' then Char.ofNat (c.toNat + 32) else c

/-- String lowercasing: character-wise `rustToLower`. -/
def lowerStr (l : List Char) : List Char := l.map rustToLower

/-- Leading-whitespace removal, one half of Rust `str::trim`. -/
def trimLeft (l : List Char) : List Char := l.dropWhile rustIsWhitespace

/-- Models Rust `str::trim`: removes whitespace from both ends. -/
def trim (l : List Char) : List Char :=
  ((trimLeft l).reverse.dropWhile rustIsWhitespace).reverse

/-- The ellipsis marker `"..."` appended/prepended by `extract_snippet`. -/
def dots : List Char := ['.', '.', '.']

/-- Drop the first `n` BYTES of a character list.  Returns `none` when
`n` is not a character boundary (or exceeds the length): exactly the
situations in which the corresponding Rust slice `&s[n..]` panics. -/
def byteDrop : Nat → List Char → Option (List Char)
  | 0, l => some l
  | _ + 1, [] => none
  | n + 1, c :: rest =>
    if c.utf8Size ≤ n + 1 then byteDrop (n + 1 - c.utf8Size) rest else none

/-- Take the first `n` BYTES of a character list.  Returns `none` when
`n` is not a character boundary: exactly when Rust `&s[..n]` panics. -/
def byteTake : Nat → List Char → Option (List Char)
  | 0, _ => some []
  | _ + 1, [] => none
  | n + 1, c :: rest =>
    if c.utf8Size ≤ n + 1 then
      (byteTake (n + 1 - c.utf8Size) rest).map (c :: ·)
    else none

/-- Byte-range slice `&s[a..b]`; `none` models a Rust slicing panic. -/
def byteSlice (a b : Nat) (l : List Char) : Option (List Char) :=
  if a ≤ b then (byteDrop a l).bind (byteTake (b - a)) else none

/-- Byte offset of the first occurrence of `needle` in `hay`; models
Rust `str::find` with a string pattern (line 69 of the source). -/
def findSub (needle : List Char) : List Char → Option Nat
  | [] => if needle.isPrefixOf ([] : List Char) then some 0 else none
  | c :: rest =>
    if needle.isPrefixOf (c :: rest) then some 0
    else (findSub needle rest).map (fun n => c.utf8Size + n)

/-- Embedding of `Searcher::extract_snippet` (source lines 64-93).
`content` and `query` are lowered character-wise; the first occurrence
of the lowered query is located at byte offset `pos`; the snippet
window is `[pos - max_length/3, min (pos + query.len() + 2*max_length/3)
(content.len()))`, sliced out of the ORIGINAL `content` at byte
granularity, trimmed, and decorated with `"..."` markers exactly when
truncation occurred on the corresponding side.  When the query does not
occur, the first `min max_length content.len()` bytes are taken and a
trailing marker is added iff `content.len() > max_length`.  A `none`
result models the Rust byte-slicing panic. -/
def extract_snippet (content query : List Char) (max_length : Nat) :
    Option (List Char) :=
  let content_lower := lowerStr content
  let query_lower := lowerStr query
  match findSub query_lower content_lower with
  | some pos =>
    let start := pos - max_length / 3
    let e := min (pos + utf8Len query + 2 * max_length / 3) (utf8Len content)
    (byteSlice start e content).map (fun w =>
      let snippet := trim w
      let snippet := if 0 < start then dots ++ snippet else snippet
      if e < utf8Len content then snippet ++ dots else snippet)
  | none =>
    let e := min max_length (utf8Len content)
    (byteSlice 0 e content).map (fun w =>
      let snippet := trim w
      if max_length < utf8Len content then snippet ++ dots else snippet)

example : extract_snippet (cs "hello world") (cs "world") 50 =
    some (cs "hello world") := by decide
example : extract_snippet (cs "") (cs "x") 100 = some [] := by decide
example : extract_snippet (cs "βx") (cs "x") 3 = none := by decide
example : extract_snippet (cs "x y") (cs " ") 0 = some (cs "......") := by
  decide

/-- A row of the document table joined with its FTS index: the shape
produced by the SQL SELECT at lines 96-108 / 145-157 of the source
(path, category, title, content). -/
structure DocRow where
  path : List Char
  category : List Char
  title : List Char
  content : List Char
  deriving DecidableEq

/-- Embedding of the `SearchResult` struct (source lines 43-51).  The
`rank` field is declared `Option`al and is skipped by the JSON
serializer when absent.  Scores are opaque pass-through values in this
program (never computed with, only stored and re-emitted by the bm25
oracle), modelled by `Int`. -/
structure SearchResult where
  path : List Char
  category : List Char
  title : List Char
  snippet : List Char
  rank : Option Int
  deriving DecidableEq

/-- Insert a row into a rank-sorted list, keeping ascending score
order.  Together with `sortByRank` this models the `ORDER BY rank`
clause; the engine's tie order is unspecified by the source, and this
model fixes one admissible order. -/
def insertByRank (score : DocRow → Int) (x : DocRow) :
    List DocRow → List DocRow
  | [] => [x]
  | y :: ys =>
    if score x ≤ score y then x :: y :: ys else y :: insertByRank score x ys

/-- Ascending sort by the bm25 score oracle; models `ORDER BY rank`. -/
def sortByRank (score : DocRow → Int) (l : List DocRow) : List DocRow :=
  l.foldr (insertByRank score) []

/-- Declarative meaning of the SQL query of `Searcher::search`
(lines 96-108): rows satisfying the FTS `MATCH` predicate (the external
engine's oracle `matches`), ordered ascending by the engine's bm25
score oracle, capped by `LIMIT`. -/
def runQuery (docs : List DocRow) (ftsMatch : DocRow → Bool)
    (score : DocRow → Int) (limit : Nat) : List DocRow :=
  (sortByRank score (docs.filter (fun d => ftsMatch d))).take limit

/-- Declarative meaning of the SQL query of `Searcher::search_category`
(lines 145-157): same as `runQuery` plus the `d.category = ?` equality
filter. -/
def runQueryCat (docs : List DocRow) (ftsMatch : DocRow → Bool)
    (score : DocRow → Int) (category : List Char) (limit : Nat) :
    List DocRow :=
  (sortByRank score
    (docs.filter (fun d => ftsMatch d && d.category == category))).take limit

/-- The per-row result construction shared by `search` and
`search_category` (source lines 123-135 and 172-184): the body is
replaced by its snippet and `rank` is set to `Some(rank)`.  `none`
propagates a snippet-extraction panic. -/
def rowToResult (score : DocRow → Int) (query : List Char)
    (maxSnippet : Nat) (d : DocRow) : Option SearchResult :=
  (extract_snippet d.content query maxSnippet).map (fun snip =>
    ⟨d.path, d.category, d.title, snip, some (score d)⟩)

/-- Option-valued map over a list: `some` of the image lists when every
element maps to `some`, otherwise `none` (a panic anywhere aborts the
whole invocation). -/
def mapAll (f : α → Option β) : List α → Option (List β)
  | [] => some []
  | x :: xs =>
    match f x, mapAll f xs with
    | some y, some ys => some (y :: ys)
    | _, _ => none

/-- Embedding of `Searcher::search` (source lines 95-136): execute the
query, then build one `SearchResult` per returned row, in order. -/
def search (docs : List DocRow) (ftsMatch : DocRow → Bool)
    (score : DocRow → Int) (query : List Char) (limit maxSnippet : Nat) :
    Option (List SearchResult) :=
  mapAll (rowToResult score query maxSnippet)
    (runQuery docs ftsMatch score limit)

/-- Embedding of `Searcher::search_category` (source lines 138-185). -/
def search_category (docs : List DocRow) (ftsMatch : DocRow → Bool)
    (score : DocRow → Int) (query category : List Char)
    (limit maxSnippet : Nat) : Option (List SearchResult) :=
  mapAll (rowToResult score query maxSnippet)
    (runQueryCat docs ftsMatch score category limit)

/-- Abstract JSON values, used to state value-level properties of the
serialized outputs (`serde_json::Value` with its default `BTreeMap`
object representation, whose keys are sorted). -/
inductive Json where
  | null : Json
  | num : Int → Json
  | str : List Char → Json
  | arr : List Json → Json
  | obj : List (List Char × Json) → Json

/-- The field list of a JSON object (empty for non-objects). -/
def jsonFields : Json → List (List Char × Json)
  | .obj fs => fs
  | _ => []

/-- Value-level serialization of a `SearchResult` by the derived serde
`Serialize` impl (source lines 43-51): fields in the serializer's
sorted-map key order, with `rank` omitted when `None`
(`skip_serializing_if = "Option::is_none"`). -/
def resultToJson (r : SearchResult) : Json :=
  Json.obj
    ([(cs "category", Json.str r.category), (cs "path", Json.str r.path)] ++
      (match r.rank with
       | some x => [(cs "rank", Json.num x)]
       | none => []) ++
      [(cs "snippet", Json.str r.snippet), (cs "title", Json.str r.title)])

/-- Value-level form of the compact JSONL record built by the
`json!` macro at source lines 202-208: short keys, `rank` rendered as
`null` when absent (an `Option` serializes to `null`, the `json!` arm
has no skip attribute). -/
def jsonlValue (r : SearchResult) : Json :=
  Json.obj
    [(cs "c", Json.str r.category), (cs "p", Json.str r.path),
     (cs "r", match r.rank with | some x => Json.num x | none => Json.null),
     (cs "s", Json.str r.snippet), (cs "t", Json.str r.title)]

/-- Decoder for one record of the pretty-structured output: reads the
long-key fields back into a `SearchResult` (`rank` absent means
`None`). -/
def resultFromJson (j : Json) : Option SearchResult :=
  match (jsonFields j).lookup (cs "path"), (jsonFields j).lookup (cs "category"),
      (jsonFields j).lookup (cs "title"), (jsonFields j).lookup (cs "snippet") with
  | some (.str p), some (.str c), some (.str t), some (.str s) =>
    some ⟨p, c, t, s,
      match (jsonFields j).lookup (cs "rank") with
      | some (.num x) => some x
      | _ => none⟩
  | _, _, _, _ => none

/-- Decoder for the pretty-structured envelope: the ordered record list
under the `results` key. -/
def decodePretty (j : Json) : Option (List SearchResult) :=
  match (jsonFields j).lookup (cs "results") with
  | some (.arr xs) => mapAll resultFromJson xs
  | _ => none

/-- The line-break character used to join output lines. -/
def nlc : Char := '\n'

/-- The double-quote character. -/
def dq : Char := Char.ofNat 34

/-- The backslash character. -/
def bs : Char := Char.ofNat 92

/-- The single-quote character. -/
def squote : Char := Char.ofNat 39

/-- The opening-brace character. -/
def obr : Char := Char.ofNat 123

/-- The closing-brace character. -/
def cbr : Char := Char.ofNat 125

/-- Decimal digit character for `d % 10`. -/
def digit (d : Nat) : Char :=
  match d % 10 with
  | 0 => '0' | 1 => '1' | 2 => '2' | 3 => '3' | 4 => '4'
  | 5 => '5' | 6 => '6' | 7 => '7' | 8 => '8' | _ => '9'

/-- Hexadecimal digit character for `d % 16` (lowercase, as emitted by
serde_json in `\u00XX` escapes). -/
def hexDigit (d : Nat) : Char :=
  match d % 16 with
  | 0 => '0' | 1 => '1' | 2 => '2' | 3 => '3' | 4 => '4'
  | 5 => '5' | 6 => '6' | 7 => '7' | 8 => '8' | 9 => '9'
  | 10 => 'a' | 11 => 'b' | 12 => 'c' | 13 => 'd' | 14 => 'e' | _ => 'f'

/-- Decimal digits of `n`, most significant first (`fuel` bounds the
recursion; `fuel = n` always suffices). -/
def natDigitsAux : Nat → Nat → List Char
  | 0, _ => []
  | fuel + 1, n => if n = 0 then [] else natDigitsAux fuel (n / 10) ++ [digit n]

/-- Decimal rendering of a natural number. -/
def renderNat (n : Nat) : List Char :=
  if n = 0 then ['0'] else natDigitsAux n n

/-- Decimal rendering of an integer (scores: opaque pass-through; the
exact digit string of an f64 is irrelevant to every stated property). -/
def intLit (x : Int) : List Char :=
  if x < 0 then '-' :: renderNat x.natAbs else renderNat x.natAbs

/-- JSON string escaping as performed by serde_json: quote, backslash
and control characters are escaped, everything else passes through. -/
def escapeChar (c : Char) : List Char :=
  if c = dq then [bs, dq]
  else if c = bs then [bs, bs]
  else if c = '\n' then [bs, 'n']
  else if c = '\r' then [bs, 'r']
  else if c = '\t' then [bs, 't']
  else if c.toNat = 8 then [bs, 'b']
  else if c.toNat = 12 then [bs, 'f']
  else if c.toNat < 32 then
    [bs, 'u', '0', '0', hexDigit (c.toNat / 16), hexDigit c.toNat]
  else [c]

/-- Escape a whole string. -/
def escapeStr (s : List Char) : List Char := s.flatMap escapeChar

/-- A JSON string literal: escaped content between double quotes. -/
def strLit (s : List Char) : List Char := dq :: escapeStr s ++ [dq]

/-- Rendering of the optional rank: a number, or `null` when absent. -/
def rankLit : Option Int → List Char
  | some x => intLit x
  | none => cs "null"

/-- Comma-join of pre-rendered pieces. -/
def commaJoin : List (List Char) → List Char
  | [] => []
  | [x] => x
  | x :: y :: ys => x ++ ',' :: commaJoin (y :: ys)

/-- Compact rendering of a flat JSON object from (raw key, rendered
value) pairs, exactly as `serde_json::Value::to_string` prints it:
no whitespace, keys quoted and escaped. -/
def renderObjStr (fs : List (List Char × List Char)) : List Char :=
  obr :: commaJoin (fs.map (fun kv => strLit kv.1 ++ ':' :: kv.2)) ++ [cbr]

/-- The compact one-line record printed for one result by the JSONL arm
(source lines 199-211): `json!` value with short keys, rendered by
`to_string` (sorted-map key order). -/
def jsonlLine (r : SearchResult) : List Char :=
  renderObjStr
    [(cs "c", strLit r.category), (cs "p", strLit r.path),
     (cs "r", rankLit r.rank), (cs "s", strLit r.snippet),
     (cs "t", strLit r.title)]

/-- The `OutputFormat::Jsonl` arm of `format_results` together with the
empty-result check at lines 189-194: the literal empty-container string
for no results, otherwise one compact record per line joined by a
single line break. -/
def formatJsonl (rs : List SearchResult) : List Char :=
  if rs = [] then cs "\x7b\"results\":[],\"count\":0\x7d"
  else [nlc].intercalate (rs.map jsonlLine)

/-- The `OutputFormat::Json` arm (source lines 214-221), modelled at
the JSON-value level: a single envelope with the query string, the
result count and the ordered result list (sorted-map key order); the
empty case returns the value spelled by the literal at line 191, in the
literal's own field order.  `serde_json::to_string_pretty` renders this
value with stable indentation; the rendering itself is not modelled. -/
def formatJson (rs : List SearchResult) (q : List Char) : Json :=
  if rs = [] then
    Json.obj [(cs "results", Json.arr []), (cs "count", Json.num 0)]
  else
    Json.obj
      [(cs "count", Json.num rs.length), (cs "query", Json.str q),
       (cs "results", Json.arr (rs.map resultToJson))]

/-- The header line of the text arm (source line 224). -/
def textHeader (k : Nat) (q : List Char) : List Char :=
  cs "Found " ++ renderNat k ++ cs " results for " ++ [squote] ++ q ++
    [squote] ++ cs ":\n"

/-- The three strings pushed per result by the text arm
(source lines 226-230); `i` is the 0-based position. -/
def textEntry (i : Nat) (r : SearchResult) : List (List Char) :=
  [renderNat (i + 1) ++ cs ". [" ++ r.category ++ cs "] " ++ r.title,
   cs "   Path: " ++ r.path,
   cs "   " ++ r.snippet ++ cs "\n"]

/-- The `OutputFormat::Text` arm (source lines 222-233) with the
empty-result check at lines 189-194: a header then the numbered
entries, all joined by single line breaks. -/
def formatText (rs : List SearchResult) (q : List Char) : List Char :=
  if rs = [] then cs "No results found."
  else
    [nlc].intercalate
      (textHeader rs.length q :: (rs.enum.map (fun p => textEntry p.1 p.2)).flatten)

/-- Embedding of the `OutputFormat` enum (source lines 36-41). -/
inductive OutputFormat where
  | json : OutputFormat
  | jsonl : OutputFormat
  | text : OutputFormat
  deriving DecidableEq

/-- The parsed, validated CLI values handed to the core
(source lines 7-34): query term, result limit, snippet budget, output
mode and optional category filter.  The database path is represented
only through `Env.dbExists` / `Env.openOk`. -/
structure Args where
  query : List Char
  limit : Nat
  maxSnippet : Nat
  format : OutputFormat
  category : Option (List Char)

/-- The external world of one invocation: whether the database file
exists (line 241), whether the store can be opened (lines 58-62),
whether the engine accepts the query expression (the `?` propagation at
lines 110/159-161), and the store's contents together with the engine's
match and bm25 oracles. -/
structure Env where
  dbExists : Bool
  openOk : Bool
  querySyntaxOk : Bool
  docs : List DocRow
  ftsMatch : DocRow → Bool
  score : DocRow → Int

/-- The dispatch on the optional category filter
(source lines 247-251). -/
def dispatchSearch (env : Env) (args : Args) : Option (List SearchResult) :=
  match args.category with
  | some c =>
    search_category env.docs env.ftsMatch env.score args.query c
      args.limit args.maxSnippet
  | none =>
    search env.docs env.ftsMatch env.score args.query args.limit args.maxSnippet

/-- How one invocation terminates: normal completion (exit 0, the
formatted output was printed), an `anyhow` error propagated to `main`
(human-readable message, non-zero exit), or a Rust panic (non-zero
exit; raised only by the byte-boundary slicing in `extract_snippet`). -/
inductive ExitOutcome where
  | ok : ExitOutcome
  | errorExit : List Char → ExitOutcome
  | panicExit : ExitOutcome
  deriving DecidableEq

/-- Embedding of `main` (source lines 237-257): bail when the database
file is missing, propagate a store-open failure, propagate an engine
query failure, run the (category-filtered) search, format and print.
`format_results` is total for well-formed inputs (its only error source
is serde serialization, unreachable here), so after a successful search
the invocation always completes with exit 0. -/
def progMain (env : Env) (args : Args) : ExitOutcome :=
  if env.dbExists = false then .errorExit (cs "Database not found")
  else if env.openOk = false then .errorExit (cs "Failed to open database")
  else if env.querySyntaxOk = false then
    .errorExit (cs "query preparation or execution failed")
  else
    match dispatchSearch env args with
    | none => .panicExit
    | some _ => .ok

/-- Modelled from the spec, section 4.2 step 2: the snippet produced
for a term found at byte offset `pos` — the window
`[max(0, pos - max_length/3), min(len(body), pos + len(term) +
2*max_length/3))`, trimmed, with a leading ellipsis marker iff the
window start is positive and a trailing one iff the window end is short
of `len(body)`.  Stated for comparison against `extract_snippet`. -/
def specWindowSnippet (body term : List Char) (max_length pos : Nat) :
    Option (List Char) :=
  let ws := pos - max_length / 3
  let we := min (pos + utf8Len term + 2 * max_length / 3) (utf8Len body)
  (byteSlice ws we body).map (fun w =>
    (if 0 < ws then dots else []) ++ trim w ++
      (if we < utf8Len body then dots else []))

/-- Modelled from the spec, section 4.2 step 3: the snippet produced
when the term is not found — the first `min(max_length, len(body))`
characters, trimmed, with a trailing ellipsis marker only if `body` was
truncated.  Stated for comparison against `extract_snippet`. -/
def specPrefixSnippet (body : List Char) (max_length : Nat) :
    Option (List Char) :=
  (byteTake (min max_length (utf8Len body)) body).map (fun w =>
    trim w ++ (if max_length < utf8Len body then dots else []))

example : formatJsonl [] = cs "\x7b\"results\":[],\"count\":0\x7d" := by decide
example :
    formatJsonl [⟨cs "a", cs "b", cs "c", cs "d", some 2⟩] =
      cs "\x7b\"c\":\"b\",\"p\":\"a\",\"r\":2,\"s\":\"d\",\"t\":\"c\"\x7d" := by
  decide

/-- Rust `str::to_lowercase` as a string operation: the per-character
Unicode lowercase mapping `low` — one character may lower to SEVERAL
characters, e.g. İ (U+0130) lowers to the two-character "i̇"
(U+0069 U+0307), changing the byte length — concatenated over the
string.  The Unicode table itself is external to the program and is
passed as the oracle parameter `low`; `rustToLower` above is its
length-preserving ASCII fragment. -/
def lowerStrG (low : Char → List Char) (l : List Char) : List Char :=
  l.flatMap low

/-- Faithful embedding of `Searcher::extract_snippet` (source lines
64-93) over an arbitrary per-character lowercase table `low` (Rust's
Unicode table is one instance): the first occurrence of the lowered
query is located in the LOWERED content, and the resulting byte offset
is applied to the ORIGINAL content — exactly as the source does, so the
window drifts off the match whenever lowering changes byte lengths
before it.  `extract_snippet` above is this definition at the
length-preserving single-character fragment of the table. -/
def extract_snippet_gen (low : Char → List Char)
    (content query : List Char) (max_length : Nat) : Option (List Char) :=
  let content_lower := lowerStrG low content
  let query_lower := lowerStrG low query
  match findSub query_lower content_lower with
  | some pos =>
    let start := pos - max_length / 3
    let e := min (pos + utf8Len query + 2 * max_length / 3) (utf8Len content)
    (byteSlice start e content).map (fun w =>
      let snippet := trim w
      let snippet := if 0 < start then dots ++ snippet else snippet
      if e < utf8Len content then snippet ++ dots else snippet)
  | none =>
    let e := min max_length (utf8Len content)
    (byteSlice 0 e content).map (fun w =>
      let snippet := trim w
      if max_length < utf8Len content then snippet ++ dots else snippet)

/-- A concrete fragment of the Unicode lowercase table containing a
byte-length-changing mapping: İ (U+0130, 2 bytes) lowers to
"i̇" (U+0069 U+0307, 3 bytes), exactly as in Rust; ASCII letters lower
as usual and every other character is unchanged. -/
def lowDemo (c : Char) : List Char :=
  if c = 'İ' then ['i', Char.ofNat 0x307] else [rustToLower c]

/-- The row list produced by the SQL query of whichever search
operation an invocation dispatches to (source lines 247-251): the
category-filtered query under a category filter, the plain query
otherwise. -/
def queryRows (docs : List DocRow) (ftsMatch : DocRow → Bool)
    (score : DocRow → Int) (catFilter : Option (List Char))
    (limit : Nat) : List DocRow :=
  match catFilter with
  | some c => runQueryCat docs ftsMatch score c limit
  | none => runQuery docs ftsMatch score limit

/-- The search operation an invocation actually performs
(source lines 247-251): `search_category` under a category filter,
`search` otherwise. -/
def searchEither (docs : List DocRow) (ftsMatch : DocRow → Bool)
    (score : DocRow → Int) (query : List Char)
    (catFilter : Option (List Char)) (limit maxSnippet : Nat) :
    Option (List SearchResult) :=
  match catFilter with
  | some c => search_category docs ftsMatch score query c limit maxSnippet
  | none => search docs ftsMatch score query limit maxSnippet

theorem utf8Len_nil : utf8Len [] = 0 := rfl

theorem utf8Len_cons (c : Char) (l : List Char) :
    utf8Len (c :: l) = c.utf8Size + utf8Len l := by
  simp [utf8Len]

theorem utf8Len_append (a b : List Char) :
    utf8Len (a ++ b) = utf8Len a + utf8Len b := by
  simp [utf8Len]

theorem utf8Len_reverse (l : List Char) : utf8Len l.reverse = utf8Len l := by
  simp [utf8Len, List.sum_reverse]

theorem utf8Len_eq_zero {l : List Char} (h : utf8Len l = 0) : l = [] := by
  cases l with
  | nil => rfl
  | cons c rest =>
    rw [utf8Len_cons] at h
    have := Char.utf8Size_pos c
    omega

theorem utf8Len_le_of_prefix {a b : List Char} (h : a <+: b) :
    utf8Len a ≤ utf8Len b := by
  obtain ⟨t, rfl⟩ := h
  rw [utf8Len_append]
  omega

/-- Among two prefixes of the same list, the byte-shorter one is a
prefix of the byte-longer one. -/
theorem prefix_of_shared_of_le {a b l : List Char} (ha : a <+: l)
    (hb : b <+: l) (hlen : utf8Len a ≤ utf8Len b) : a <+: b := by
  rcases List.prefix_or_prefix_of_prefix ha hb with h | h
  · exact h
  · obtain ⟨t, rfl⟩ := h
    rw [utf8Len_append] at hlen
    have ht : utf8Len t = 0 := by omega
    rw [utf8Len_eq_zero ht, List.append_nil]

theorem byteDrop_some :
    ∀ (l : List Char) (n : Nat) (t : List Char), byteDrop n l = some t →
      ∃ a, l = a ++ t ∧ utf8Len a = n := by
  intro l
  induction l with
  | nil =>
    intro n t h
    cases n with
    | zero =>
      obtain rfl : ([] : List Char) = t := Option.some.inj h
      exact ⟨[], rfl, rfl⟩
    | succ m => simp [byteDrop] at h
  | cons c rest ih =>
    intro n t h
    cases n with
    | zero =>
      obtain rfl : c :: rest = t := Option.some.inj h
      exact ⟨[], rfl, rfl⟩
    | succ m =>
      simp only [byteDrop] at h
      split at h
      · obtain ⟨a, rfl, hlen⟩ := ih _ _ h
        refine ⟨c :: a, rfl, ?_⟩
        rw [utf8Len_cons, hlen]
        omega
      · exact absurd h (by simp)

theorem byteTake_some :
    ∀ (l : List Char) (n : Nat) (t : List Char), byteTake n l = some t →
      ∃ b, l = t ++ b ∧ utf8Len t = n := by
  intro l
  induction l with
  | nil =>
    intro n t h
    cases n with
    | zero =>
      obtain rfl : ([] : List Char) = t := Option.some.inj h
      exact ⟨[], rfl, rfl⟩
    | succ m => simp [byteTake] at h
  | cons c rest ih =>
    intro n t h
    cases n with
    | zero =>
      obtain rfl : ([] : List Char) = t := Option.some.inj h
      exact ⟨c :: rest, rfl, rfl⟩
    | succ m =>
      simp only [byteTake] at h
      split at h
      · rename_i hsz
        rcases Option.map_eq_some'.mp h with ⟨t', ht', rfl⟩
        obtain ⟨b, rfl, hlen⟩ := ih _ _ ht'
        refine ⟨b, rfl, ?_⟩
        rw [utf8Len_cons, hlen]
        omega
      · exact absurd h (by simp)

/-- Successful byte slices decompose the list, with the decomposition
lengths pinned to the slice offsets. -/
theorem byteSlice_some {a b : Nat} {l w : List Char}
    (h : byteSlice a b l = some w) :
    ∃ p s, l = p ++ w ++ s ∧ utf8Len p = a ∧ utf8Len p + utf8Len w = b := by
  unfold byteSlice at h
  split at h
  · rename_i hab
    rcases Option.bind_eq_some.mp h with ⟨t, hdrop, htake⟩
    obtain ⟨p, rfl, hp⟩ := byteDrop_some _ _ _ hdrop
    obtain ⟨s, rfl, hw⟩ := byteTake_some _ _ _ htake
    exact ⟨p, s, by simp, hp, by omega⟩
  · exact absurd h (by simp)

/-- A slice nested (by offsets) inside another successful slice of the
same list is an infix of the outer slice. -/
theorem slice_infix_slice {s1 e1 s2 e2 : Nat} {l m w : List Char}
    (hm : byteSlice s1 e1 l = some m) (hw : byteSlice s2 e2 l = some w)
    (hs : s2 ≤ s1) (he : e1 ≤ e2) : m <:+: w := by
  obtain ⟨p1, t1, hl1, hp1, hq1⟩ := byteSlice_some hm
  obtain ⟨p2, t2, hl2, hp2, hq2⟩ := byteSlice_some hw
  have hpre1 : p2 <+: p1 := by
    apply prefix_of_shared_of_le (l := l)
    · exact ⟨w ++ t2, by simp [hl2]⟩
    · exact ⟨m ++ t1, by simp [hl1]⟩
    · omega
  obtain ⟨d, rfl⟩ := hpre1
  rw [utf8Len_append] at hp1 hq1
  have hpre2 : (p2 ++ d) ++ m <+: p2 ++ w := by
    apply prefix_of_shared_of_le (l := l)
    · exact ⟨t1, by simp [hl1]⟩
    · exact ⟨t2, by simp [hl2]⟩
    · simp only [utf8Len_append]
      omega
  obtain ⟨t, ht⟩ := hpre2
  refine ⟨d, t, ?_⟩
  have hc : p2 ++ (d ++ m ++ t) = p2 ++ w := by
    simpa using ht
  exact List.append_cancel_left hc

theorem utf8Len_dropWhile_le (p : Char → Bool) (l : List Char) :
    utf8Len (l.dropWhile p) ≤ utf8Len l := by
  obtain ⟨a, ha⟩ := List.dropWhile_suffix p (l := l)
  calc utf8Len (l.dropWhile p) ≤ utf8Len a + utf8Len (l.dropWhile p) := by omega
    _ = utf8Len l := by rw [← utf8Len_append, ha]

theorem utf8Len_trim_le (l : List Char) : utf8Len (trim l) ≤ utf8Len l := by
  unfold trim trimLeft
  calc utf8Len ((l.dropWhile rustIsWhitespace).reverse.dropWhile
        rustIsWhitespace).reverse
      = utf8Len ((l.dropWhile rustIsWhitespace).reverse.dropWhile
          rustIsWhitespace) := utf8Len_reverse _
    _ ≤ utf8Len (l.dropWhile rustIsWhitespace).reverse :=
        utf8Len_dropWhile_le _ _
    _ = utf8Len (l.dropWhile rustIsWhitespace) := utf8Len_reverse _
    _ ≤ utf8Len l := utf8Len_dropWhile_le _ _

/-- A nonempty infix whose first character is not whitespace survives
left-trimming. -/
theorem infix_dropWhileWS {m v : List Char} (hne : m ≠ [])
    (hh : ∀ c ∈ m.head?, ¬ rustIsWhitespace c) (h : m <:+: v) :
    m <:+: v.dropWhile rustIsWhitespace := by
  obtain ⟨s, t, rfl⟩ := h
  induction s with
  | nil =>
    cases m with
    | nil => exact absurd rfl hne
    | cons mh mt =>
      have hmh : ¬ rustIsWhitespace mh = true := hh mh (by simp)
      rw [List.nil_append, List.cons_append, List.dropWhile_cons, if_neg hmh]
      exact ⟨[], t, by simp⟩
  | cons c s' ih =>
    have hassoc : ((c :: s') ++ m) ++ t = c :: ((s' ++ m) ++ t) := by simp
    rw [hassoc, List.dropWhile_cons]
    by_cases hc : rustIsWhitespace c = true
    · rw [if_pos hc]
      exact ih
    · rw [if_neg hc]
      exact ⟨c :: s', t, by simp⟩

/-- A nonempty infix whose last character is not whitespace survives
right-trimming (trimming through a reversal). -/
theorem infix_rdropWS {m v : List Char} (hne : m ≠ [])
    (hl : ∀ c ∈ m.getLast?, ¬ rustIsWhitespace c) (h : m <:+: v) :
    m <:+: (v.reverse.dropWhile rustIsWhitespace).reverse := by
  have h1 : m.reverse <:+: v.reverse := List.reverse_infix.mpr h
  have h2 : m.reverse <:+: v.reverse.dropWhile rustIsWhitespace := by
    apply infix_dropWhileWS (by simpa using hne) _ h1
    intro c hc
    rw [List.head?_reverse] at hc
    exact hl c hc
  have h3 := List.reverse_infix.mpr h2
  simpa using h3

/-- A nonempty infix with non-whitespace first and last characters
survives `trim`. -/
theorem infix_trim {m v : List Char} (hne : m ≠ [])
    (hh : ∀ c ∈ m.head?, ¬ rustIsWhitespace c)
    (hl : ∀ c ∈ m.getLast?, ¬ rustIsWhitespace c) (h : m <:+: v) :
    m <:+: trim v := by
  unfold trim trimLeft
  exact infix_rdropWS hne hl (infix_dropWhileWS hne hh h)

/-- A successful `findSub` locates an actual occurrence, at the byte
length of the preceding segment. -/
theorem findSub_some (needle : List Char) :
    ∀ (hay : List Char) (pos : Nat), findSub needle hay = some pos →
      ∃ p s, hay = p ++ needle ++ s ∧ utf8Len p = pos := by
  intro hay
  induction hay with
  | nil =>
    intro pos h
    unfold findSub at h
    split at h
    · rename_i hp
      obtain rfl : needle = [] := by
        simpa using ( List.isPrefixOf_iff_prefix.mp hp)
      obtain rfl : (0 : Nat) = pos := Option.some.inj h
      exact ⟨[], [], rfl, rfl⟩
    · exact absurd h (by simp)
  | cons c rest ih =>
    intro pos h
    unfold findSub at h
    split at h
    · rename_i hp
      obtain ⟨s, hs⟩ := List.isPrefixOf_iff_prefix.mp hp
      obtain rfl : (0 : Nat) = pos := Option.some.inj h
      exact ⟨[], s, by simpa using hs.symm, rfl⟩
    · rcases Option.map_eq_some'.mp h with ⟨n, hn, rfl⟩
      obtain ⟨p, s, rfl, hlen⟩ := ih n hn
      refine ⟨c :: p, s, rfl, ?_⟩
      rw [utf8Len_cons, hlen]

theorem mapAll_length {f : α → Option β} :
    ∀ {xs : List α} {ys : List β}, mapAll f xs = some ys →
      ys.length = xs.length := by
  intro xs
  induction xs with
  | nil =>
    intro ys h
    obtain rfl : ([] : List β) = ys := Option.some.inj h
    rfl
  | cons x xs ih =>
    intro ys h
    unfold mapAll at h
    cases hfx : f x with
    | none => rw [hfx] at h; exact absurd h (by simp)
    | some y =>
      rw [hfx] at h
      cases hm : mapAll f xs with
      | none => rw [hm] at h; exact absurd h (by simp)
      | some ys' =>
        rw [hm] at h
        obtain rfl : y :: ys' = ys := Option.some.inj h
        simp [ih hm]

theorem mapAll_getElem? {f : α → Option β} :
    ∀ {xs : List α} {ys : List β}, mapAll f xs = some ys →
      ∀ i : Nat, ys[i]? = (xs[i]?).bind f := by
  intro xs
  induction xs with
  | nil =>
    intro ys h i
    obtain rfl : ([] : List β) = ys := Option.some.inj h
    simp
  | cons x xs ih =>
    intro ys h i
    unfold mapAll at h
    cases hfx : f x with
    | none => rw [hfx] at h; exact absurd h (by simp)
    | some y =>
      rw [hfx] at h
      cases hm : mapAll f xs with
      | none => rw [hm] at h; exact absurd h (by simp)
      | some ys' =>
        rw [hm] at h
        obtain rfl : y :: ys' = ys := Option.some.inj h
        cases i with
        | zero => simpa using hfx.symm
        | succ j => simpa using ih hm j

theorem mapAll_mem {f : α → Option β} :
    ∀ {xs : List α} {ys : List β}, mapAll f xs = some ys →
      ∀ y ∈ ys, ∃ x ∈ xs, f x = some y := by
  intro xs
  induction xs with
  | nil =>
    intro ys h y hy
    obtain rfl : ([] : List β) = ys := Option.some.inj h
    simp at hy
  | cons x xs ih =>
    intro ys h y hy
    unfold mapAll at h
    cases hfx : f x with
    | none => rw [hfx] at h; exact absurd h (by simp)
    | some y' =>
      rw [hfx] at h
      cases hm : mapAll f xs with
      | none => rw [hm] at h; exact absurd h (by simp)
      | some ys' =>
        rw [hm] at h
        obtain rfl : y' :: ys' = ys := Option.some.inj h
        rcases List.mem_cons.mp hy with rfl | hy'
        · exact ⟨x, by simp, hfx⟩
        · obtain ⟨x', hx', hfx'⟩ := ih hm y hy'
          exact ⟨x', by simp [hx'], hfx'⟩

theorem mem_insertByRank {score : DocRow → Int} {a x : DocRow} :
    ∀ {l : List DocRow}, x ∈ insertByRank score a l ↔ x = a ∨ x ∈ l := by
  intro l
  induction l with
  | nil => simp [insertByRank]
  | cons y ys ih =>
    unfold insertByRank
    split
    · simp
    · simp only [List.mem_cons, ih]
      tauto

theorem mem_sortByRank {score : DocRow → Int} {x : DocRow} :
    ∀ {l : List DocRow}, x ∈ sortByRank score l ↔ x ∈ l := by
  intro l
  induction l with
  | nil => simp [sortByRank]
  | cons y ys ih =>
    show x ∈ insertByRank score y (sortByRank score ys) ↔ _
    rw [mem_insertByRank]
    simp [ih]

theorem length_insertByRank {score : DocRow → Int} {a : DocRow} :
    ∀ {l : List DocRow},
      (insertByRank score a l).length = l.length + 1 := by
  intro l
  induction l with
  | nil => rfl
  | cons y ys ih =>
    unfold insertByRank
    split
    · rfl
    · simp [ih]

theorem length_sortByRank {score : DocRow → Int} :
    ∀ {l : List DocRow}, (sortByRank score l).length = l.length := by
  intro l
  induction l with
  | nil => rfl
  | cons y ys ih =>
    show (insertByRank score y (sortByRank score ys)).length = _
    rw [length_insertByRank, ih]
    rfl

theorem digit_ne_nl (d : Nat) : digit d ≠ nlc := by
  unfold digit
  split <;> decide

theorem hexDigit_ne_nl (d : Nat) : hexDigit d ≠ nlc := by
  unfold hexDigit
  split <;> decide

theorem mem_natDigitsAux_ne_nl :
    ∀ (fuel n : Nat) (c : Char), c ∈ natDigitsAux fuel n → c ≠ nlc := by
  intro fuel
  induction fuel with
  | zero => intro n c hc; simp [natDigitsAux] at hc
  | succ f ih =>
    intro n c hc
    unfold natDigitsAux at hc
    split at hc
    · simp at hc
    · rcases List.mem_append.mp hc with h | h
      · exact ih _ _ h
      · obtain rfl : c = digit n := by simpa using h
        exact digit_ne_nl n

theorem mem_renderNat_ne_nl (n : Nat) (c : Char) (h : c ∈ renderNat n) :
    c ≠ nlc := by
  unfold renderNat at h
  split at h
  · obtain rfl : c = '0' := by simpa using h
    decide
  · exact mem_natDigitsAux_ne_nl _ _ _ h

theorem mem_intLit_ne_nl (x : Int) (c : Char) (h : c ∈ intLit x) :
    c ≠ nlc := by
  unfold intLit at h
  split at h
  · rcases List.mem_cons.mp h with rfl | h'
    · decide
    · exact mem_renderNat_ne_nl _ _ h'
  · exact mem_renderNat_ne_nl _ _ h

theorem mem_escapeChar_ne_nl (c x : Char) (h : x ∈ escapeChar c) :
    x ≠ nlc := by
  unfold escapeChar at h
  split_ifs at h with h1 h2 h3 h4 h5 h6 h7 h8
  · rcases (by simpa using h : x = bs ∨ x = dq) with rfl | rfl <;> decide
  · rcases (by simpa using h : x = bs ∨ x = bs) with rfl | rfl <;> decide
  · rcases (by simpa using h : x = bs ∨ x = 'n') with rfl | rfl <;> decide
  · rcases (by simpa using h : x = bs ∨ x = 'r') with rfl | rfl <;> decide
  · rcases (by simpa using h : x = bs ∨ x = 't') with rfl | rfl <;> decide
  · rcases (by simpa using h : x = bs ∨ x = 'b') with rfl | rfl <;> decide
  · rcases (by simpa using h : x = bs ∨ x = 'f') with rfl | rfl <;> decide
  · simp only [List.mem_cons] at h
    rcases h with rfl | rfl | rfl | rfl | h'
    · decide
    · decide
    · decide
    · decide
    · rcases (by simpa using h' : x = hexDigit (c.toNat / 16) ∨
          x = hexDigit c.toNat) with rfl | rfl
      · exact hexDigit_ne_nl _
      · exact hexDigit_ne_nl _
  · have hxc : x = c := by simpa using h
    intro hx
    rw [hxc] at hx
    rw [hx] at h8
    exact h8 (by decide)

theorem mem_escapeStr_ne_nl (s : List Char) (x : Char) (h : x ∈ escapeStr s) :
    x ≠ nlc := by
  obtain ⟨c, _, hx⟩ := List.mem_flatMap.mp h
  exact mem_escapeChar_ne_nl c x hx

theorem mem_strLit_ne_nl (s : List Char) (x : Char) (h : x ∈ strLit s) :
    x ≠ nlc := by
  unfold strLit at h
  rcases List.mem_cons.mp h with rfl | h'
  · decide
  · rcases List.mem_append.mp h' with h'' | h''
    · exact mem_escapeStr_ne_nl s x h''
    · obtain rfl : x = dq := by simpa using h''
      decide

theorem mem_rankLit_ne_nl (o : Option Int) (x : Char) (h : x ∈ rankLit o) :
    x ≠ nlc := by
  cases o with
  | some v => exact mem_intLit_ne_nl v x h
  | none =>
    have h' : x ∈ ['n', 'u', 'l', 'l'] := h
    rcases (by simpa using h' : x = 'n' ∨ x = 'u' ∨ x = 'l') with
      rfl | rfl | rfl <;> decide

theorem mem_commaJoin :
    ∀ (ls : List (List Char)) (x : Char), x ∈ commaJoin ls →
      x = ',' ∨ ∃ l ∈ ls, x ∈ l := by
  intro ls
  induction ls with
  | nil => intro x hx; simp [commaJoin] at hx
  | cons a ys ih =>
    intro x hx
    cases ys with
    | nil =>
      right
      exact ⟨a, by simp, by simpa [commaJoin] using hx⟩
    | cons b zs =>
      unfold commaJoin at hx
      rcases List.mem_append.mp hx with h | h
      · exact Or.inr ⟨a, by simp, h⟩
      · rcases List.mem_cons.mp h with rfl | h'
        · exact Or.inl rfl
        · rcases ih x h' with h'' | ⟨l, hl, hxl⟩
          · exact Or.inl h''
          · exact Or.inr ⟨l, by simp [hl], hxl⟩

theorem mem_renderObjStr_ne_nl (fs : List (List Char × List Char))
    (hv : ∀ kv ∈ fs, ∀ y ∈ kv.2, y ≠ nlc) (x : Char)
    (h : x ∈ renderObjStr fs) : x ≠ nlc := by
  unfold renderObjStr at h
  rcases List.mem_cons.mp h with rfl | h'
  · decide
  · rcases List.mem_append.mp h' with h'' | h''
    · rcases mem_commaJoin _ x h'' with rfl | ⟨l, hl, hxl⟩
      · decide
      · obtain ⟨kv, hkv, rfl⟩ := List.mem_map.mp hl
        rcases List.mem_append.mp hxl with h3 | h3
        · exact mem_strLit_ne_nl _ _ h3
        · rcases List.mem_cons.mp h3 with rfl | h4
          · decide
          · exact hv kv hkv x h4
    · obtain rfl : x = cbr := by simpa using h''
      decide

theorem nl_not_mem_jsonlLine (r : SearchResult) : nlc ∉ jsonlLine r := by
  intro h
  refine mem_renderObjStr_ne_nl _ ?_ nlc h rfl
  intro kv hkv y hy
  simp only [List.mem_cons, List.not_mem_nil, or_false] at hkv
  rcases hkv with rfl | rfl | rfl | rfl | rfl
  · exact mem_strLit_ne_nl _ _ hy
  · exact mem_strLit_ne_nl _ _ hy
  · exact mem_rankLit_ne_nl _ _ hy
  · exact mem_strLit_ne_nl _ _ hy
  · exact mem_strLit_ne_nl _ _ hy

/-- The JSONL output splits back into exactly one record line per
result, because no escaped record can contain a raw line break. -/
theorem formatJsonl_splitOn (rs : List SearchResult) (h : rs ≠ []) :
    (formatJsonl rs).splitOn nlc = rs.map jsonlLine := by
  unfold formatJsonl
  rw [if_neg h]
  refine List.splitOn_intercalate (rs.map jsonlLine) nlc ?_ (by simpa using h)
  intro l hl
  obtain ⟨r, _, rfl⟩ := List.mem_map.mp hl
  exact nl_not_mem_jsonlLine r

/-- Round trip for one record: decoding the derived serialization
recovers the original `SearchResult`. -/
theorem resultFromJson_toJson (r : SearchResult) :
    resultFromJson (resultToJson r) = some r := by
  rcases r with ⟨p, c, t, s, x⟩
  cases x with
  | none => rfl
  | some v => rfl

/-- Round trip for a whole record list. -/
theorem mapAll_resultFromJson_map (rs : List SearchResult) :
    mapAll resultFromJson (rs.map resultToJson) = some rs := by
  induction rs with
  | nil => rfl
  | cons r rs ih =>
    show mapAll resultFromJson (resultToJson r :: rs.map resultToJson) = _
    unfold mapAll
    rw [resultFromJson_toJson, ih]

/-- C1: the claim says `extract` is total over all string/length inputs
and never splits a multi-byte character; the code computes the window
start as a byte offset and slices `content` there, which lands inside
the two-byte character `'β'` on body `"βx"`, term `"x"`, budget 3
(start = 2 - 3/3 = 1): the Rust slice panics, modelled here by `none`.
-/
theorem extract_snippet_panics_on_multibyte :
    extract_snippet (cs "βx") (cs "x") 3 = none := by decide

/-- C9: decoding the pretty-structured envelope recovers the result set
record-for-record, so re-encoding the decoded set in compact-line form
is field-for-field identical (path, category, title, snippet, score) to
the direct compact-line encoding of the original set. -/
theorem pretty_roundtrip_jsonl (q : List Char) (rs : List SearchResult) :
    decodePretty (formatJson rs q) = some rs ∧
      (decodePretty (formatJson rs q)).map (fun ds => ds.map jsonlValue) =
        some (rs.map jsonlValue) := by
  have h1 : decodePretty (formatJson rs q) = some rs := by
    cases rs with
    | nil => rfl
    | cons r rs' =>
      have h0 : decodePretty (formatJson (r :: rs') q) =
          mapAll resultFromJson ((r :: rs').map resultToJson) := rfl
      rw [h0, mapAll_resultFromJson_map]
  refine ⟨h1, ?_⟩
  rw [h1]
  rfl

/-- C10: every result constructed by `search` or `search_category` has
`rank = Some(score)`, so although the field is optional and would be
skipped when absent, both serialized forms of every actual result carry
the rank/score field. -/
theorem rank_always_present (docs : List DocRow) (ftsMatch : DocRow → Bool)
    (score : DocRow → Int) (q cat : List Char) (lim ms : Nat)
    (rs : List SearchResult)
    (h : search docs ftsMatch score q lim ms = some rs ∨
      search_category docs ftsMatch score q cat lim ms = some rs)
    (r : SearchResult) (hr : r ∈ rs) :
    ∃ x : Int, r.rank = some x ∧
      ((jsonFields (resultToJson r)).lookup (cs "rank") =
        some (Json.num x)) ∧
      ((jsonFields (jsonlValue r)).lookup (cs "r") = some (Json.num x)) := by
  have hex : ∃ d, rowToResult score q ms d = some r := by
    rcases h with h | h
    · obtain ⟨d, _, hd⟩ := mapAll_mem h r hr
      exact ⟨d, hd⟩
    · obtain ⟨d, _, hd⟩ := mapAll_mem h r hr
      exact ⟨d, hd⟩
  obtain ⟨d, hd⟩ := hex
  unfold rowToResult at hd
  rcases Option.map_eq_some'.mp hd with ⟨snip, _, hr'⟩
  refine ⟨score d, ?_, ?_, ?_⟩
  · rw [← hr']
  · rw [← hr']
    rfl
  · rw [← hr']
    rfl

/-- C10 witness: a concrete one-row search whose single result carries
its bm25 score in the rank field and in both serializations. -/
theorem rank_always_present_witness :
    ∃ x : Int,
      (⟨cs "p", cs "c", cs "t", cs "hi", some 7⟩ : SearchResult).rank =
        some x ∧
      ((jsonFields (resultToJson ⟨cs "p", cs "c", cs "t", cs "hi", some 7⟩)).lookup
        (cs "rank") = some (Json.num x)) ∧
      ((jsonFields (jsonlValue ⟨cs "p", cs "c", cs "t", cs "hi", some 7⟩)).lookup
        (cs "r") = some (Json.num x)) :=
  rank_always_present [⟨cs "p", cs "c", cs "t", cs "hi"⟩] (fun _ => true)
    (fun _ => 7) (cs "hi") (cs "c") 10 50
    [⟨cs "p", cs "c", cs "t", cs "hi", some 7⟩]
    (Or.inl (by decide)) _ (by decide)

/-- C7: a category-filtered search returns at most `limit` rows, and
every returned result's category field equals the filter value. -/
theorem search_category_filter (docs : List DocRow)
    (ftsMatch : DocRow → Bool) (score : DocRow → Int) (q cat : List Char)
    (lim ms : Nat) (rs : List SearchResult)
    (h : search_category docs ftsMatch score q cat lim ms = some rs) :
    rs.length ≤ lim ∧ ∀ r ∈ rs, r.category = cat := by
  constructor
  · rw [mapAll_length h]
    exact List.length_take_le _ _
  · intro r hr
    obtain ⟨d, hd, hfd⟩ := mapAll_mem h r hr
    have hdf : d ∈ docs.filter
        (fun d => ftsMatch d && d.category == cat) :=
      mem_sortByRank.mp (List.mem_of_mem_take hd)
    have hpred := (List.mem_filter.mp hdf).2
    have hcat : d.category = cat := by
      simp only [Bool.and_eq_true, beq_iff_eq] at hpred
      exact hpred.2
    unfold rowToResult at hfd
    rcases Option.map_eq_some'.mp hfd with ⟨snip, _, hr'⟩
    rw [← hr']
    exact hcat

/-- C7 witness: a concrete category-filtered search; its single result
has the filter category and the count is within the limit. -/
theorem search_category_filter_witness :
    ([⟨cs "p", cs "c", cs "t", cs "hello", some 0⟩] :
        List SearchResult).length ≤ 5 ∧
      ∀ r ∈ ([⟨cs "p", cs "c", cs "t", cs "hello", some 0⟩] :
        List SearchResult), r.category = cs "c" :=
  search_category_filter [⟨cs "p", cs "c", cs "t", cs "hello"⟩]
    (fun _ => true) (fun _ => 0) (cs "hello") (cs "c") 5 50
    [⟨cs "p", cs "c", cs "t", cs "hello", some 0⟩] (by decide)

/-- C8 (amended): the three fatal failures (database file missing,
store unopenable, query rejected) each abort the invocation with a
human-readable message and non-zero exit, checked in that order with no
local recovery; every other invocation whose snippet extraction does
not hit a byte-boundary panic — in particular any zero-result
invocation — terminates with exit 0. -/
theorem main_exit_behavior (env : Env) (args : Args) :
    (env.dbExists = false →
      progMain env args = ExitOutcome.errorExit (cs "Database not found")) ∧
    (env.dbExists = true → env.openOk = false →
      progMain env args =
        ExitOutcome.errorExit (cs "Failed to open database")) ∧
    (env.dbExists = true → env.openOk = true → env.querySyntaxOk = false →
      progMain env args =
        ExitOutcome.errorExit (cs "query preparation or execution failed")) ∧
    (∀ rs, env.dbExists = true → env.openOk = true →
      env.querySyntaxOk = true → dispatchSearch env args = some rs →
      progMain env args = ExitOutcome.ok) := by
  refine ⟨?_, ?_, ?_, ?_⟩
  · intro h1
    simp [progMain, h1]
  · intro h1 h2
    simp [progMain, h1, h2]
  · intro h1 h2 h3
    simp [progMain, h1, h2, h3]
  · intro rs h1 h2 h3 hs
    simp [progMain, h1, h2, h3, hs]

/-- C8 witness: a well-formed zero-result invocation exits 0. -/
theorem main_exit_behavior_witness :
    progMain ⟨true, true, true, [], fun _ => false, fun _ => 0⟩
      ⟨cs "q", 10, 500, OutputFormat.jsonl, none⟩ = ExitOutcome.ok :=
  (main_exit_behavior ⟨true, true, true, [], fun _ => false, fun _ => 0⟩
    ⟨cs "q", 10, 500, OutputFormat.jsonl, none⟩).2.2.2 [] rfl rfl rfl
    (by decide)

/-- C8 counterexample: with the database present, the store openable
and the query accepted — none of the listed fatal failures — the
invocation still terminates abnormally (non-zero) on a byte-boundary
snippet panic, contradicting "every other invocation terminates with
zero exit". -/
theorem main_panics_without_fatal_failure :
    progMain ⟨true, true, true, [⟨cs "p", cs "c", cs "t", cs "βx"⟩],
        fun _ => true, fun _ => 0⟩
      ⟨cs "x", 10, 3, OutputFormat.jsonl, none⟩ = ExitOutcome.panicExit := by
  decide

/-- C5: every search — `search_category` under a category filter,
`search` otherwise, covered uniformly through the dispatch
`searchEither` — produces exactly one `SearchResult` per returned row,
order-preserving (the `i`-th result is exactly the image of the `i`-th
row of `queryRows`), and all three output modes lay the results out in
exactly that order: the JSONL output splits back into the per-result
record lines in order, the JSON envelope's `results` field is the
in-order value list, and the text output is the header followed by the
in-order numbered entry blocks. -/
theorem search_order_preserving (docs : List DocRow)
    (ftsMatch : DocRow → Bool) (score : DocRow → Int) (q : List Char)
    (catFilter : Option (List Char)) (lim ms : Nat)
    (rs : List SearchResult)
    (h : searchEither docs ftsMatch score q catFilter lim ms = some rs) :
    rs.length = (queryRows docs ftsMatch score catFilter lim).length ∧
    (∀ i : Nat, rs[i]? =
      ((queryRows docs ftsMatch score catFilter lim)[i]?).bind
        (rowToResult score q ms)) ∧
    (rs ≠ [] → (formatJsonl rs).splitOn nlc = rs.map jsonlLine) ∧
    ((jsonFields (formatJson rs q)).lookup (cs "results") =
      some (Json.arr (rs.map resultToJson))) ∧
    (rs ≠ [] → formatText rs q =
      [nlc].intercalate (textHeader rs.length q ::
        (rs.enum.map (fun p => textEntry p.1 p.2)).flatten)) := by
  have h' : mapAll (rowToResult score q ms)
      (queryRows docs ftsMatch score catFilter lim) = some rs := by
    cases catFilter with
    | none => exact h
    | some c => exact h
  refine ⟨mapAll_length h', mapAll_getElem? h', ?_, ?_, ?_⟩
  · intro hne
    exact formatJsonl_splitOn rs hne
  · cases rs with
    | nil => rfl
    | cons r rs' => rfl
  · intro hne
    unfold formatText
    rw [if_neg hne]

/-- C5 witness: a concrete one-row category-filtered search, where the
result list has exactly the length of the row list returned by the
category query. -/
theorem search_order_preserving_witness :
    ([⟨cs "p", cs "c", cs "t", cs "hello", some 0⟩] :
        List SearchResult).length =
      (queryRows [⟨cs "p", cs "c", cs "t", cs "hello"⟩] (fun _ => true)
        (fun _ => 0) (some (cs "c")) 10).length :=
  (search_order_preserving [⟨cs "p", cs "c", cs "t", cs "hello"⟩]
    (fun _ => true) (fun _ => 0) (cs "hello") (some (cs "c")) 10 50
    [⟨cs "p", cs "c", cs "t", cs "hello", some 0⟩] (by decide)).1

/-- C6: for a nonempty result set of size `k` the compact-line output
has exactly `k` lines, each a self-contained record, with no enclosing
envelope; the pretty-structured envelope carries the original query,
`count = k` and the ordered result list; and with zero results the
compact-line/pretty-structured modes emit a well-formed empty-container
encoding (empty result list, zero count) while text mode emits the
one-line no-results message. -/
theorem format_results_counts (q : List Char) (rs : List SearchResult)
    (hne : rs ≠ []) :
    ((formatJsonl rs).splitOn nlc).length = rs.length ∧
    (formatJsonl rs).splitOn nlc = rs.map jsonlLine ∧
    ((jsonFields (formatJson rs q)).lookup (cs "count") =
      some (Json.num rs.length)) ∧
    ((jsonFields (formatJson rs q)).lookup (cs "query") =
      some (Json.str q)) ∧
    ((jsonFields (formatJson rs q)).lookup (cs "results") =
      some (Json.arr (rs.map resultToJson))) ∧
    formatJsonl [] =
      renderObjStr [(cs "results", cs "[]"), (cs "count", renderNat 0)] ∧
    formatJson [] q =
      Json.obj [(cs "results", Json.arr []), (cs "count", Json.num 0)] ∧
    formatText [] q = cs "No results found." := by
  have hsplit := formatJsonl_splitOn rs hne
  refine ⟨by rw [hsplit, List.length_map], hsplit, ?_, ?_, ?_,
    by decide, rfl, rfl⟩
  · cases rs with
    | nil => exact absurd rfl hne
    | cons r rs' => rfl
  · cases rs with
    | nil => exact absurd rfl hne
    | cons r rs' => rfl
  · cases rs with
    | nil => exact absurd rfl hne
    | cons r rs' => rfl

/-- C6 witness: a concrete one-result set, where the compact-line
output has exactly one line. -/
theorem format_results_counts_witness :
    ((formatJsonl [⟨cs "p", cs "c", cs "t", cs "s", some 1⟩]).splitOn
        nlc).length =
      ([⟨cs "p", cs "c", cs "t", cs "s", some 1⟩] :
        List SearchResult).length :=
  (format_results_counts (cs "q") [⟨cs "p", cs "c", cs "t", cs "s", some 1⟩]
    (by decide)).1

theorem byteSlice_zero (n : Nat) (l : List Char) :
    byteSlice 0 n l = byteTake n l := by
  simp [byteSlice, byteDrop, Nat.zero_le, Nat.sub_zero]

/-- Unfolding of `extract_snippet` in the found branch. -/
theorem extract_snippet_eq_found {body term : List Char} {L pos : Nat}
    (hfind : findSub (lowerStr term) (lowerStr body) = some pos) :
    extract_snippet body term L =
      (byteSlice (pos - L / 3)
        (min (pos + utf8Len term + 2 * L / 3) (utf8Len body)) body).map
        (fun w =>
          let snippet := trim w
          let snippet := if 0 < pos - L / 3 then dots ++ snippet else snippet
          if min (pos + utf8Len term + 2 * L / 3) (utf8Len body) <
            utf8Len body then snippet ++ dots else snippet) := by
  simp only [extract_snippet, hfind]

/-- Unfolding of `extract_snippet` in the not-found branch. -/
theorem extract_snippet_eq_notfound {body term : List Char} {L : Nat}
    (hfind : findSub (lowerStr term) (lowerStr body) = none) :
    extract_snippet body term L =
      (byteSlice 0 (min L (utf8Len body)) body).map (fun w =>
        let snippet := trim w
        if L < utf8Len body then snippet ++ dots else snippet) := by
  simp only [extract_snippet, hfind]

/-- `extract_snippet` is `extract_snippet_gen` at the single-character
fragment of the lowercase table. -/
theorem lowerStrG_singleton (l : List Char) :
    lowerStrG (fun c => [rustToLower c]) l = lowerStr l := by
  induction l with
  | nil => rfl
  | cons c rest ih =>
    show rustToLower c :: lowerStrG (fun c => [rustToLower c]) rest = _
    rw [ih]
    rfl

/-- The two extractor embeddings agree wherever the table is
single-character. -/
theorem extract_snippet_gen_ascii (content query : List Char) (L : Nat) :
    extract_snippet_gen (fun c => [rustToLower c]) content query L =
      extract_snippet content query L := by
  simp only [extract_snippet_gen, extract_snippet, lowerStrG_singleton]

/-- Unfolding of `extract_snippet_gen` in the found branch. -/
theorem extract_snippet_gen_eq_found {low : Char → List Char}
    {body term : List Char} {L pos : Nat}
    (hfind : findSub (lowerStrG low term) (lowerStrG low body) = some pos) :
    extract_snippet_gen low body term L =
      (byteSlice (pos - L / 3)
        (min (pos + utf8Len term + 2 * L / 3) (utf8Len body)) body).map
        (fun w =>
          let snippet := trim w
          let snippet := if 0 < pos - L / 3 then dots ++ snippet else snippet
          if min (pos + utf8Len term + 2 * L / 3) (utf8Len body) <
            utf8Len body then snippet ++ dots else snippet) := by
  simp only [extract_snippet_gen, hfind]

/-- C2 (amended): the extractor computes its window from the first
occurrence of the lowered term in the LOWERED body — a byte offset
`pos` measured in the lowered string but applied to the original body's
bytes.  For every lowercase table `low` (Rust's Unicode table in
particular): the result is exactly the spec window computation at that
offset (`specWindowSnippet`) — the window `[max(0, pos - L/3),
min(len body, pos + len term + 2L/3))`, trimmed, leading marker iff the
window start is positive, trailing marker iff the window end is short
of `len body`, and `none` (panic) exactly when the window splits a
multi-byte character.  That window sits at the match's own body offset
only when lowering preserves byte length up to the match (all-ASCII
bodies in particular; see the counterexample for the drift).  Moreover
the snippet contains the body's byte slice at `[pos, pos + len term)` —
the matched substring in the offset-faithful case — provided that slice
exists and neither starts nor ends with whitespace (trimming can
otherwise delete it). -/
theorem extract_snippet_found_spec (low : Char → List Char)
    (body term : List Char) (L pos : Nat)
    (hfind : findSub (lowerStrG low term) (lowerStrG low body) = some pos) :
    extract_snippet_gen low body term L = specWindowSnippet body term L pos ∧
    ∀ m s, byteSlice pos (pos + utf8Len term) body = some m → m ≠ [] →
      (∀ c ∈ m.head?, ¬ rustIsWhitespace c) →
      (∀ c ∈ m.getLast?, ¬ rustIsWhitespace c) →
      extract_snippet_gen low body term L = some s → m <:+: s := by
  have heq : extract_snippet_gen low body term L =
      specWindowSnippet body term L pos := by
    rw [extract_snippet_gen_eq_found hfind]
    simp only [specWindowSnippet]
    congr 1
    funext w
    by_cases h1 : 0 < pos - L / 3 <;>
      by_cases h2 : min (pos + utf8Len term + 2 * L / 3) (utf8Len body) <
        utf8Len body <;>
      simp [h1, h2]
  refine ⟨heq, ?_⟩
  intro m s hm hne hh hl hs
  rw [heq] at hs
  simp only [specWindowSnippet] at hs
  rcases Option.map_eq_some'.mp hs with ⟨w, hw, hsw⟩
  obtain ⟨p1, s1, hbody, hp1, hq1⟩ := byteSlice_some hm
  have hlen : pos + utf8Len term ≤ utf8Len body := by
    rw [hbody]
    simp only [utf8Len_append]
    omega
  have hminfix : m <:+: w := by
    apply slice_infix_slice hm hw
    · omega
    · exact le_min (by omega) hlen
  have htrim : m <:+: trim w := infix_trim hne hh hl hminfix
  obtain ⟨a, b, hab⟩ := htrim
  rw [← hsw]
  exact ⟨(if 0 < pos - L / 3 then dots else []) ++ a,
    b ++ (if min (pos + utf8Len term + 2 * L / 3) (utf8Len body) <
      utf8Len body then dots else []), by rw [← hab]; simp⟩

/-- C2 counterexample: body `"İİa b"` contains term `"a b"`
case-insensitively at BODY byte offset 4 (the byte slice `[4, 7)` is
exactly `"a b"`), and the claim's window at that offset with budget 0
yields the snippet `"...a b"`.  But İ lowers to the three-byte `"i̇"`,
so the program finds the match at byte 6 of the LOWERED body, slices
the ORIGINAL body there, and returns `"...b"` — a snippet neither taken
from the claim's window nor containing the matched substring.
(A second failure mode of the original claim, with no offset drift:
`extract("x y", " ", 0) = "......"` — trimming deletes a whitespace
match.) -/
theorem extract_snippet_window_drift :
    byteSlice 4 7 (cs "İİa b") = some (cs "a b") ∧
    findSub (lowerStrG lowDemo (cs "a b")) (lowerStrG lowDemo (cs "İİa b")) =
      some 6 ∧
    extract_snippet_gen lowDemo (cs "İİa b") (cs "a b") 0 =
      some (cs "...b") ∧
    specWindowSnippet (cs "İİa b") (cs "a b") 0 4 = some (cs "...a b") ∧
    ¬ (cs "a b") <:+: (cs "...b") := by
  refine ⟨by decide, by decide, by decide, by decide, by decide⟩

/-- Supporting observation to C2: even without offset drift (all
characters case-stable), trimming can delete a whitespace-edged match —
body `"x y"`, term `" "`, budget 0 yields `"......"`, which does not
contain `" "`. -/
theorem extract_snippet_trim_eats_match :
    findSub (lowerStr (cs " ")) (lowerStr (cs "x y")) = some 1 ∧
      extract_snippet (cs "x y") (cs " ") 0 = some (cs "......") ∧
      ¬ (cs " ") <:+: (cs "......") := by
  refine ⟨by decide, by decide, by decide⟩

/-- C2 witness: on `"hello world"` / `"world"` with budget 50 (under
the concrete table `lowDemo`, which is offset-faithful on this ASCII
input) the snippet contains the matched substring. -/
theorem extract_snippet_found_spec_witness :
    (cs "world") <:+: (cs "hello world") :=
  (extract_snippet_found_spec lowDemo (cs "hello world") (cs "world") 50 6
      (by decide)).2
    (cs "world") (cs "hello world") (by decide) (by decide) (by decide)
    (by decide) (by decide)

/-- C3 (amended): every returned snippet's byte length is bounded by
the snippet budget plus the byte length of the term plus 6 bytes of
ellipsis markers (the window spans up to `len term + L` bytes before
trimming, so the term length cannot be dropped from the bound — see the
counterexample). -/
theorem extract_snippet_length_bound (body term : List Char) (L : Nat)
    (s : List Char) (h : extract_snippet body term L = some s) :
    utf8Len s ≤ L + utf8Len term + 6 := by
  have hd : utf8Len dots = 3 := rfl
  cases hf : findSub (lowerStr term) (lowerStr body) with
  | some pos =>
    rw [extract_snippet_eq_found hf] at h
    rcases Option.map_eq_some'.mp h with ⟨w, hw, hsw⟩
    obtain ⟨p, t, hbody, hp, hq⟩ := byteSlice_some hw
    have hmin : utf8Len p + utf8Len w ≤ pos + utf8Len term + 2 * L / 3 :=
      le_trans (le_of_eq hq) (min_le_left _ _)
    have htr : utf8Len (trim w) ≤ utf8Len w := utf8Len_trim_le w
    rw [← hsw]
    by_cases h1 : 0 < pos - L / 3 <;>
      by_cases h2 : min (pos + utf8Len term + 2 * L / 3) (utf8Len body) <
        utf8Len body <;>
      simp only [h1, h2, if_true, if_false, ite_true, ite_false,
        utf8Len_append, hd] <;>
      omega
  | none =>
    rw [extract_snippet_eq_notfound hf] at h
    rcases Option.map_eq_some'.mp h with ⟨w, hw, hsw⟩
    rw [byteSlice_zero] at hw
    obtain ⟨b, hb, hlen⟩ := byteTake_some _ _ _ hw
    have htr : utf8Len (trim w) ≤ utf8Len w := utf8Len_trim_le w
    have hminle : min L (utf8Len body) ≤ L := min_le_left _ _
    rw [← hsw]
    by_cases h2 : L < utf8Len body <;>
      simp only [h2, if_true, if_false, ite_true, ite_false,
        utf8Len_append, hd] <;>
      omega

/-- C3 counterexample: with budget 0 and a 10-byte term equal to the
whole body, the snippet is 10 bytes long — more than the budget plus
the 6 possible marker bytes. -/
theorem extract_snippet_exceeds_budget :
    extract_snippet (cs "aaaaaaaaaa") (cs "aaaaaaaaaa") 0 =
      some (cs "aaaaaaaaaa") ∧ 0 + 6 < utf8Len (cs "aaaaaaaaaa") := by
  constructor <;> decide

/-- C3 witness: a concrete snippet within the amended bound. -/
theorem extract_snippet_length_bound_witness :
    utf8Len (cs "hello") ≤ 10 + utf8Len (cs "he") + 6 :=
  extract_snippet_length_bound (cs "hello") (cs "he") 10 (cs "hello")
    (by decide)

/-- C4 (amended): when the term does not occur case-insensitively in
the body, the extractor agrees exactly with the spec's prefix snippet
(`specPrefixSnippet`) — including the byte-boundary panic cases, where
both are `none`; whenever the byte offset `min L (len body)` is a
character boundary (all-ASCII bodies in particular), the snippet is the
whitespace-trim of a prefix of the body of byte length at most `L`,
with a trailing ellipsis marker iff `len body > L`; and in particular
`extract("", "x", 100) = ""`. -/
theorem extract_snippet_notfound_spec :
    (∀ body term L, findSub (lowerStr term) (lowerStr body) = none →
      extract_snippet body term L = specPrefixSnippet body L ∧
      ∀ w, byteTake (min L (utf8Len body)) body = some w →
        w <+: body ∧ utf8Len w ≤ L ∧ utf8Len (trim w) ≤ L ∧
        extract_snippet body term L =
          some (trim w ++ (if L < utf8Len body then dots else []))) ∧
    extract_snippet [] (cs "x") 100 = some [] := by
  constructor
  · intro body term L hf
    have heq : extract_snippet body term L = specPrefixSnippet body L := by
      rw [extract_snippet_eq_notfound hf]
      simp only [specPrefixSnippet]
      rw [byteSlice_zero]
      congr 1
      funext w
      by_cases h2 : L < utf8Len body <;> simp [h2]
    refine ⟨heq, ?_⟩
    intro w hw
    obtain ⟨b, hb, hlen⟩ := byteTake_some _ _ _ hw
    have h1 : utf8Len w ≤ L := le_trans (le_of_eq hlen) (min_le_left _ _)
    refine ⟨⟨b, hb.symm⟩, h1, le_trans (utf8Len_trim_le w) h1, ?_⟩
    rw [heq]
    simp only [specPrefixSnippet]
    rw [hw]
    rfl
  · decide

/-- C4 counterexample: body `"β"` does not contain term `"x"`, yet with
budget 1 the code panics slicing at byte 1 (inside `'β'`) instead of
returning a trimmed prefix with a trailing marker. -/
theorem extract_snippet_notfound_panics :
    findSub (lowerStr (cs "x")) (lowerStr (cs "β")) = none ∧
      extract_snippet (cs "β") (cs "x") 1 = none := by
  constructor <;> decide

/-- C4 witness: body `"abc"`, absent term `"z"`, budget 2: the
extractor returns the spec prefix snippet. -/
theorem extract_snippet_notfound_spec_witness :
    extract_snippet (cs "abc") (cs "z") 2 = specPrefixSnippet (cs "abc") 2 :=
  (extract_snippet_notfound_spec.1 (cs "abc") (cs "z") 2 (by decide)).1
